import Mathlib

/-!
# Verification of the subpls subtitle-download pipeline

Shallow embedding of the algorithmic core of the `subpls` repository:

* the OpenSubtitles 64-bit file checksum (`src/user/movie/hash.rs`,
  `os_hash`),
* the candidate selector (`choose_best` in `src/user/mod.rs`,
  `filter_subs` in `src/user/movie/mod.rs`),
* result extraction from the weakly typed XML-RPC responses
  (`extract_subids` in `src/subs.rs`),
* the request construction guard (`search_request` in `src/subs.rs`),
* the save path (`save_subs` in `src/user/movie/mod.rs`) with its
  base64 + gzip decode pipeline (`decode_reader`).

Machine integers are modelled as `Nat` with explicit `% 2 ^ 64`
(respectively `% 2 ^ 32`) where wraparound matters; file contents are
`List Nat` whose elements are byte values `0 ≤ b < 256`; `f64` ratings
are modelled as `ℚ` (the protocol rating range is the finite interval
`[0, 10]`, so neither infinities nor NaN arise).
-/

namespace Subpls

/-! ## Checksum engine (`src/user/movie/hash.rs`) -/

/-- Result of `os_hash`: the `Hash` struct of `hash.rs`
(`hash: String`, `size: u64`). -/
structure Hash where
  hash : String
  size : Nat
  deriving Repr, DecidableEq

/-- Little-endian interpretation of a byte list as an unsigned integer,
the explicit form of the `mem::transmute::<[u8; 8], u64>` in `os_hash`
on a little-endian host (the byte order the spec mandates). -/
def leWord : List Nat → Nat
  | [] => 0
  | b :: t => b + 256 * leWord t

/-- The 64-bit word read at byte offset `pos` of the file. -/
def wordAt (file : List Nat) (pos : Nat) : Nat :=
  leWord ((file.drop pos).take 8)

/-- One `read_exact(&mut buffer)` of 8 bytes at position `pos`:
it fails (with an `IoError`) when fewer than 8 bytes remain. -/
def readWord (file : List Nat) (pos : Nat) : Option Nat :=
  if pos + 8 ≤ file.length then some (wordAt file pos) else none

/-- One of the two `for _ in 0..ITERATIONS` loops of `os_hash`: reads
`n` consecutive 64-bit words starting at `pos`, adding each into the
`u64` accumulator with `wrapping_add` (modulo `2 ^ 64`). Returns the
accumulator and the reader position, or `none` on a short read. -/
def hashLoop (file : List Nat) : Nat → Nat → Nat → Option (Nat × Nat)
  | 0, pos, h => some (h, pos)
  | n + 1, pos, h =>
    match readWord file pos with
    | none => none
    | some w => hashLoop file n (pos + 8) ((h + w) % 2 ^ 64)

/-- Zero-padded 16-digit lowercase hexadecimal rendering: the
`format!("{:01$x}", hash, 16)` of `os_hash`. -/
def hexPad16 (n : Nat) : String :=
  let ds := Nat.toDigits 16 n
  String.mk (List.replicate (16 - ds.length) '0' ++ ds)

/-- The `os_hash` function of `src/user/movie/hash.rs` on the byte
contents of the file. The accumulator starts at the file size (a `u64`,
hence `% 2 ^ 64`), the first loop reads 8192 words from offset 0, the
`seek(SeekFrom::End(-BLOCK))` fails on files shorter than 65536 bytes
(negative seek), and the second loop reads 8192 words from
`size - 65536`. `none` is the `Err(io::Error)` path. -/
def os_hash (file : List Nat) : Option Hash :=
  let filesize := file.length
  match hashLoop file 8192 0 (filesize % 2 ^ 64) with
  | none => none
  | some (h1, _) =>
    if 65536 ≤ filesize then
      match hashLoop file 8192 (filesize - 65536) h1 with
      | none => none
      | some (h2, _) => some ⟨hexPad16 h2, filesize⟩
    else none

/-- Sum of the first 8192 little-endian 64-bit words of the file. -/
def sumFirstWords (file : List Nat) : Nat :=
  ∑ i ∈ Finset.range 8192, wordAt file (8 * i)

/-- Sum of the last 8192 little-endian 64-bit words of the file. -/
def sumLastWords (file : List Nat) : Nat :=
  ∑ i ∈ Finset.range 8192, wordAt file (file.length - 65536 + 8 * i)

theorem readWord_of_le {file : List Nat} {pos : Nat}
    (h : pos + 8 ≤ file.length) : readWord file pos = some (wordAt file pos) := by
  simp [readWord, h]

theorem hashLoop_eq_sum (file : List Nat) :
    ∀ (n pos h : Nat), pos + 8 * n ≤ file.length →
      hashLoop file n pos (h % 2 ^ 64) =
        some ((h + ∑ i ∈ Finset.range n, wordAt file (pos + 8 * i)) % 2 ^ 64,
          pos + 8 * n) := by
  intro n
  induction n with
  | zero => intro pos h _; simp [hashLoop]
  | succ n ih =>
    intro pos h hle
    have hpos : pos + 8 ≤ file.length := by omega
    rw [hashLoop, readWord_of_le hpos]
    have hmod : (h % 2 ^ 64 + wordAt file pos) % 2 ^ 64
        = (h + wordAt file pos) % 2 ^ 64 := by omega
    simp only [hmod]
    have hle' : pos + 8 + 8 * n ≤ file.length := by omega
    have hs : (∑ i ∈ Finset.range n, wordAt file (pos + 8 * (i + 1)))
        = ∑ i ∈ Finset.range n, wordAt file (pos + 8 + 8 * i) := by
      refine Finset.sum_congr rfl fun i _ => ?_
      congr 1
      ring
    have := ih (pos + 8) (h + wordAt file pos) hle'
    rw [this]
    congr 2
    · rw [Finset.sum_range_succ', hs]
      simp only [Nat.mul_zero, Nat.add_zero]
      congr 1
      ring
    · omega

/-- C1: for every file of length at least 131072 bytes, `os_hash`
returns a fingerprint whose size is the file length and whose hash is
the file length plus the sum of the first 8192 and the last 8192
little-endian unsigned 64-bit words, modulo `2 ^ 64`, rendered as a
lowercase hexadecimal string zero-padded to 16 digits. -/
theorem os_hash_spec (file : List Nat) (hlen : 131072 ≤ file.length) :
    os_hash file =
      some ⟨hexPad16 ((file.length + sumFirstWords file + sumLastWords file) % 2 ^ 64),
        file.length⟩ := by
  have h1 := hashLoop_eq_sum file 8192 0 file.length (by omega)
  have h2 := hashLoop_eq_sum file 8192 (file.length - 65536)
      (file.length + ∑ i ∈ Finset.range 8192, wordAt file (0 + 8 * i)) (by omega)
  have hif : (65536 ≤ file.length) = True := eq_true (by omega)
  have hsum : (∑ i ∈ Finset.range 8192, wordAt file (0 + 8 * i)) = sumFirstWords file := by
    refine Finset.sum_congr rfl fun i _ => ?_
    congr 1
    omega
  rw [hsum] at h1 h2
  simp only [os_hash, h1, hif, if_true, h2, Option.some.injEq, Hash.mk.injEq,
    sumLastWords, and_true]

theorem leWord_replicate_zero : ∀ k, leWord (List.replicate k 0) = 0 := by
  intro k
  induction k with
  | zero => rfl
  | succ k ih => simpa [List.replicate_succ, leWord] using ih

theorem wordAt_replicate_zero (n pos : Nat) :
    wordAt (List.replicate n 0) pos = 0 := by
  rw [wordAt, List.drop_replicate, List.take_replicate, leWord_replicate_zero]

theorem os_hash_spec_witness :
    131072 ≤ (List.replicate 131072 (0 : Nat)).length ∧
      os_hash (List.replicate 131072 (0 : Nat)) = some ⟨hexPad16 131072, 131072⟩ := by
  have hlen : 131072 ≤ (List.replicate 131072 (0 : Nat)).length := by
    rw [List.length_replicate]
  refine ⟨hlen, ?_⟩
  rw [os_hash_spec _ hlen]
  have hf : sumFirstWords (List.replicate 131072 (0 : Nat)) = 0 := by
    simp only [sumFirstWords, wordAt_replicate_zero, Finset.sum_const_zero]
  have hl : sumLastWords (List.replicate 131072 (0 : Nat)) = 0 := by
    simp only [sumLastWords, wordAt_replicate_zero, Finset.sum_const_zero]
  rw [hf, hl, List.length_replicate]
  norm_num

/-! ## Candidate selector (`choose_best`, `src/user/mod.rs`; the
`choose_best` in `src/main.rs` is the same algorithm on a struct
without the `filename`/`format`/`b64gz` fields) -/

/-- The `User` struct of `src/user/mod.rs` (api endpoint, session
token, requested subtitle language). -/
structure User where
  api : String
  token : String
  sublanguageid : String
  deriving Repr, DecidableEq

/-- The `Subtitles` struct of `src/user/mod.rs`: one search hit. -/
structure Subtitles where
  moviehash : String
  filename : Option String
  format : String
  subid : String
  rating : ℚ
  sublanguageid : String
  b64gz : Option String
  deriving Repr, DecidableEq

/-- Association-list model of `std::collections::HashMap` insertion:
replace the entry with the given key, or append a new one. Lookup is
`List.lookup`; iteration order is irrelevant to the claims. -/
def hmInsert {α : Type} : List (String × α) → String → α → List (String × α)
  | [], k, v => [(k, v)]
  | (k', v') :: t, k, v =>
    if k' = k then (k, v) :: t else (k', v') :: hmInsert t k v

/-- Body of the `for cand in candidates` loop of `choose_best`:
skip a candidate in another language; insert when the hash is new;
replace only when the stored rating is strictly lower. -/
def chooseBestStep (u : User) (best : List (String × Subtitles))
    (cand : Subtitles) : List (String × Subtitles) :=
  if cand.sublanguageid ≠ u.sublanguageid then best
  else
    match best.lookup cand.moviehash with
    | none => hmInsert best cand.moviehash cand
    | some tmp =>
      if tmp.rating < cand.rating then hmInsert best cand.moviehash cand
      else best

/-- The `choose_best` function of `src/user/mod.rs` (lines 280–300). -/
def choose_best (u : User) (candidates : List Subtitles) :
    List (String × Subtitles) :=
  candidates.foldl (chooseBestStep u) []

theorem lookup_cons {α : Type} (k' : String) (v' : α) (t : List (String × α))
    (h : String) :
    List.lookup h ((k', v') :: t) = if h = k' then some v' else List.lookup h t := by
  by_cases hh : h = k'
  · have hb : (h == k') = true := by simpa using hh
    simp [List.lookup, hb, hh]
  · have hb : (h == k') = false := by simpa using hh
    simp [List.lookup, hb, hh]

theorem lookup_hmInsert_ne {α : Type} (m : List (String × α)) {h k : String}
    (v : α) (hne : h ≠ k) : (hmInsert m k v).lookup h = m.lookup h := by
  induction m with
  | nil => rw [hmInsert, lookup_cons, if_neg hne]
  | cons p t ih =>
    obtain ⟨k', v'⟩ := p
    by_cases hk : k' = k
    · subst hk
      rw [hmInsert, if_pos rfl, lookup_cons, lookup_cons, if_neg hne, if_neg hne]
    · rw [hmInsert, if_neg hk, lookup_cons, lookup_cons]
      by_cases hh : h = k'
      · rw [if_pos hh, if_pos hh]
      · rw [if_neg hh, if_neg hh]
        exact ih

theorem mem_hmInsert {α : Type} {m : List (String × α)} {k : String} {v : α}
    {p : String × α} (hp : p ∈ hmInsert m k v) : p = (k, v) ∨ p ∈ m := by
  induction m with
  | nil => simpa [hmInsert] using hp
  | cons q t ih =>
    obtain ⟨k', v'⟩ := q
    by_cases hk : k' = k
    · subst hk
      simp only [hmInsert, if_true, eq_self_iff_true, List.mem_cons] at hp
      rcases hp with h | h
      · exact Or.inl h
      · exact Or.inr (List.mem_cons_of_mem _ h)
    · simp only [hmInsert, if_neg hk, List.mem_cons] at hp
      rcases hp with h | h
      · exact Or.inr (by simp [h])
      · rcases ih h with h' | h'
        · exact Or.inl h'
        · exact Or.inr (List.mem_cons_of_mem _ h')

theorem chooseBestStep_lang {u : User} {best : List (String × Subtitles)}
    {cand : Subtitles}
    (h : ∀ p ∈ best, p.2.sublanguageid = u.sublanguageid) :
    ∀ p ∈ chooseBestStep u best cand, p.2.sublanguageid = u.sublanguageid := by
  intro p hp
  unfold chooseBestStep at hp
  by_cases hc : cand.sublanguageid ≠ u.sublanguageid
  · rw [if_pos hc] at hp
    exact h p hp
  · rw [if_neg hc] at hp
    push_neg at hc
    cases hl : best.lookup cand.moviehash with
    | none =>
      simp only [hl] at hp
      rcases mem_hmInsert hp with rfl | hm
      · exact hc
      · exact h p hm
    | some tmp =>
      simp only [hl] at hp
      by_cases hr : tmp.rating < cand.rating
      · rw [if_pos hr] at hp
        rcases mem_hmInsert hp with rfl | hm
        · exact hc
        · exact h p hm
      · rw [if_neg hr] at hp
        exact h p hp

theorem chooseBestStep_lookup_none {u : User} {best : List (String × Subtitles)}
    {cand : Subtitles} {h : String}
    (hne : ¬(cand.moviehash = h ∧ cand.sublanguageid = u.sublanguageid))
    (hl : best.lookup h = none) :
    (chooseBestStep u best cand).lookup h = none := by
  unfold chooseBestStep
  by_cases hc : cand.sublanguageid ≠ u.sublanguageid
  · rw [if_pos hc]
    exact hl
  · rw [if_neg hc]
    push_neg at hc
    have hh : h ≠ cand.moviehash := by
      intro heq
      exact hne ⟨heq.symm, hc⟩
    cases hcand : best.lookup cand.moviehash with
    | none =>
      simp only [hcand]
      rw [lookup_hmInsert_ne _ _ hh]
      exact hl
    | some tmp =>
      simp only [hcand]
      by_cases hr : tmp.rating < cand.rating
      · rw [if_pos hr, lookup_hmInsert_ne _ _ hh]
        exact hl
      · rw [if_neg hr]
        exact hl

/-- C4: no candidate in a language other than the requested one ever
appears in the output of `choose_best`; and a fingerprint for which no
candidate matches the language is absent from the output map (the
function is total, so no error is possible either). -/
theorem choose_best_language_filter (u : User) (cands : List Subtitles) :
    (∀ p ∈ choose_best u cands, p.2.sublanguageid = u.sublanguageid) ∧
      ∀ h : String,
        (∀ c ∈ cands, ¬(c.moviehash = h ∧ c.sublanguageid = u.sublanguageid)) →
          (choose_best u cands).lookup h = none := by
  have main : ∀ (l : List Subtitles) (acc : List (String × Subtitles)),
      (∀ p ∈ acc, p.2.sublanguageid = u.sublanguageid) →
      ∀ p ∈ l.foldl (chooseBestStep u) acc, p.2.sublanguageid = u.sublanguageid := by
    intro l
    induction l with
    | nil => intro acc hacc; simpa using hacc
    | cons c t ih =>
      intro acc hacc
      rw [List.foldl_cons]
      exact ih _ (chooseBestStep_lang hacc)
  have absent : ∀ (l : List Subtitles) (h : String)
      (acc : List (String × Subtitles)),
      (∀ c ∈ l, ¬(c.moviehash = h ∧ c.sublanguageid = u.sublanguageid)) →
      acc.lookup h = none →
      (l.foldl (chooseBestStep u) acc).lookup h = none := by
    intro l
    induction l with
    | nil => intro h acc _ hl; simpa using hl
    | cons c t ih =>
      intro h acc hc hl
      rw [List.foldl_cons]
      exact ih h _ (fun d hd => hc d (List.mem_cons_of_mem _ hd))
        (chooseBestStep_lookup_none (hc c (List.mem_cons_self _ _)) hl)
  exact ⟨main cands [] (by simp), fun h hc => absent cands h [] hc (by simp)⟩

theorem choose_best_language_filter_witness :
    (∀ c ∈ [(⟨"h1", none, "srt", "A", 5, "eng", none⟩ : Subtitles),
        ⟨"h2", none, "srt", "B", 9, "ger", none⟩],
      ¬(c.moviehash = "h2" ∧ c.sublanguageid = "eng")) ∧
    (∀ p ∈ choose_best ⟨"api", "tok", "eng"⟩
        [⟨"h1", none, "srt", "A", 5, "eng", none⟩,
          ⟨"h2", none, "srt", "B", 9, "ger", none⟩],
      p.2.sublanguageid = "eng") ∧
    (choose_best ⟨"api", "tok", "eng"⟩
        [⟨"h1", none, "srt", "A", 5, "eng", none⟩,
          ⟨"h2", none, "srt", "B", 9, "ger", none⟩]).lookup "h2" = none := by
  refine ⟨by decide, ?_, ?_⟩
  · exact (choose_best_language_filter ⟨"api", "tok", "eng"⟩ _).1
  · exact (choose_best_language_filter ⟨"api", "tok", "eng"⟩ _).2 "h2" (by decide)

/-! ## Per-movie filtering (`src/user/movie/mod.rs`) -/

namespace MovieMod

/-- The `Subtitles` struct of `src/user/movie/mod.rs` (the same struct,
with the same fields, appears in `src/subs.rs`). -/
structure Subtitles where
  id : String
  lang : String
  format : String
  rating : ℚ
  b64gz : Option String
  deriving Repr, DecidableEq

/-- The `Movie` struct of `src/user/movie/mod.rs` (its `path: PathBuf`
is modelled as the path string). -/
structure Movie where
  path : String
  subs : List Subtitles
  os_info : Option Hash
  deriving Repr, DecidableEq

/-- The scan of the `for sub in &self.subs` loop of `filter_subs`:
starting from `highest = -1`, `id = ""`, record the rating and id of
every sub whose rating is strictly greater than the running maximum. -/
def bestScan : (ℚ × String) → List Subtitles → (ℚ × String)
  | acc, [] => acc
  | (highest, best), sub :: rest =>
    if sub.rating > highest then bestScan (sub.rating, sub.id) rest
    else bestScan (highest, best) rest

/-- The `filter_subs` function of `src/user/movie/mod.rs` (lines
51–61): find the id of the first sub strictly exceeding every earlier
rating, then `retain` exactly the subs carrying that id. -/
def filter_subs (m : Movie) : Movie :=
  let best := bestScan (-1, "") m.subs
  { m with subs := m.subs.filter (fun sub => sub.id == best.2) }

theorem bestScan_fst_le : ∀ (l : List Subtitles) (h : ℚ) (i : String),
    h ≤ (bestScan (h, i) l).1 ∧ ∀ s ∈ l, s.rating ≤ (bestScan (h, i) l).1 := by
  intro l
  induction l with
  | nil => intro h i; exact ⟨le_refl _, by simp⟩
  | cons s t ih =>
    intro h i
    by_cases hr : s.rating > h
    · rw [bestScan, if_pos hr]
      obtain ⟨h1, h2⟩ := ih s.rating s.id
      exact ⟨le_trans (le_of_lt hr) h1,
        by
          intro x hx
          rcases List.mem_cons.mp hx with rfl | hx
          · exact h1
          · exact h2 x hx⟩
    · rw [bestScan, if_neg hr]
      obtain ⟨h1, h2⟩ := ih h i
      push_neg at hr
      exact ⟨h1,
        by
          intro x hx
          rcases List.mem_cons.mp hx with rfl | hx
          · exact le_trans hr h1
          · exact h2 x hx⟩

theorem bestScan_mem : ∀ (l : List Subtitles) (h : ℚ) (i : String),
    bestScan (h, i) l = (h, i) ∨
      ∃ s ∈ l, bestScan (h, i) l = (s.rating, s.id) := by
  intro l
  induction l with
  | nil => intro h i; exact Or.inl rfl
  | cons s t ih =>
    intro h i
    by_cases hr : s.rating > h
    · rw [bestScan, if_pos hr]
      rcases ih s.rating s.id with heq | ⟨w, hw, heq⟩
      · exact Or.inr ⟨s, List.mem_cons_self _ _, heq⟩
      · exact Or.inr ⟨w, List.mem_cons_of_mem _ hw, heq⟩
    · rw [bestScan, if_neg hr]
      rcases ih h i with heq | ⟨w, hw, heq⟩
      · exact Or.inl heq
      · exact Or.inr ⟨w, List.mem_cons_of_mem _ hw, heq⟩

theorem filter_id_singleton {l : List Subtitles} {w : Subtitles}
    (hw : w ∈ l) (hp : l.Pairwise (fun a b => a.id ≠ b.id)) :
    l.filter (fun s => s.id == w.id) = [w] := by
  induction l with
  | nil => cases hw
  | cons a t ih =>
    rcases List.pairwise_cons.mp hp with ⟨ha, ht⟩
    rcases List.mem_cons.mp hw with rfl | hw'
    · rw [List.filter_cons_of_pos (by simp)]
      have : t.filter (fun s => s.id == w.id) = [] := by
        rw [List.filter_eq_nil_iff]
        intro b hb
        simpa using (ha b hb).symm
      rw [this]
    · have hane : a.id ≠ w.id := ha w hw'
      rw [List.filter_cons_of_neg (by simpa using hane)]
      exact ih hw' ht

end MovieMod

/-- C3 counterexample: after `filter_subs`, a video can retain two
candidates (duplicate ids), and with requested language `eng` the
retained candidate can be the German one with the higher rating —
`filter_subs` never consults the language, so the retained rating is
not the maximum among language-matching candidates (which is 1 here). -/
theorem filter_subs_invariant_counterexample :
    (MovieMod.filter_subs ⟨"m.mp4",
        [⟨"a", "eng", "srt", 5, none⟩, ⟨"a", "eng", "srt", 5, none⟩],
        none⟩).subs.length = 2 ∧
    (MovieMod.filter_subs ⟨"n.mp4",
        [⟨"a", "ger", "srt", 9, none⟩, ⟨"b", "eng", "srt", 1, none⟩],
        none⟩).subs = [⟨"a", "ger", "srt", 9, none⟩] := by
  decide

/-- C3 amended: after `filter_subs` on a video whose candidates have
pairwise-distinct ids and ratings above the `-1` sentinel, exactly one
candidate is retained (when the list is nonempty) and its rating is the
maximum among all of the video's candidates, regardless of language —
`filter_subs` performs no language filtering (only `choose_best` in
`src/user/mod.rs` does), and duplicate ids would retain several
entries. -/
theorem filter_subs_retains_unique_max (m : MovieMod.Movie)
    (hne : m.subs ≠ [])
    (hids : m.subs.Pairwise (fun a b => a.id ≠ b.id))
    (hrat : ∀ s ∈ m.subs, -1 < s.rating) :
    ∃ s ∈ m.subs, (MovieMod.filter_subs m).subs = [s] ∧
      ∀ t ∈ m.subs, t.rating ≤ s.rating := by
  obtain ⟨s1, rest, hsubs⟩ : ∃ s1 rest, m.subs = s1 :: rest := by
    cases hs : m.subs with
    | nil => exact absurd hs hne
    | cons a t => exact ⟨a, t, rfl⟩
  have hr1 : s1.rating > -1 := hrat s1 (by rw [hsubs]; exact List.mem_cons_self _ _)
  have hscan : MovieMod.bestScan (-1, "") m.subs
      = MovieMod.bestScan (s1.rating, s1.id) rest := by
    rw [hsubs, MovieMod.bestScan, if_pos hr1]
  obtain ⟨w, hwmem, hweq⟩ :
      ∃ w ∈ m.subs, MovieMod.bestScan (-1, "") m.subs = (w.rating, w.id) := by
    rcases MovieMod.bestScan_mem rest s1.rating s1.id with heq | ⟨w, hwm, heq⟩
    · exact ⟨s1, by rw [hsubs]; exact List.mem_cons_self _ _, by rw [hscan, heq]⟩
    · exact ⟨w, by rw [hsubs]; exact List.mem_cons_of_mem _ hwm, by rw [hscan, heq]⟩
  refine ⟨w, hwmem, ?_, ?_⟩
  · have hfs : (MovieMod.filter_subs m).subs
        = m.subs.filter (fun s => s.id == w.id) := by
      simp only [MovieMod.filter_subs, hweq]
    rw [hfs]
    exact MovieMod.filter_id_singleton hwmem hids
  · intro t ht
    obtain ⟨hle1, hle2⟩ := MovieMod.bestScan_fst_le rest s1.rating s1.id
    have hfst : (MovieMod.bestScan (s1.rating, s1.id) rest).1 = w.rating := by
      rw [← hscan, hweq]
    rw [hsubs] at ht
    rcases List.mem_cons.mp ht with rfl | htr
    · rw [← hfst]; exact hle1
    · rw [← hfst]; exact hle2 t htr

theorem filter_subs_retains_unique_max_witness :
    (([⟨"a", "eng", "srt", 3, none⟩, ⟨"b", "eng", "srt", 7, none⟩] :
        List MovieMod.Subtitles) ≠ []) ∧
    ∃ s ∈ ([⟨"a", "eng", "srt", 3, none⟩, ⟨"b", "eng", "srt", 7, none⟩] :
        List MovieMod.Subtitles),
      (MovieMod.filter_subs ⟨"m.mp4",
          [⟨"a", "eng", "srt", 3, none⟩, ⟨"b", "eng", "srt", 7, none⟩],
          none⟩).subs = [s] ∧
        ∀ t ∈ ([⟨"a", "eng", "srt", 3, none⟩, ⟨"b", "eng", "srt", 7, none⟩] :
            List MovieMod.Subtitles), t.rating ≤ s.rating := by
  refine ⟨by decide, ?_⟩
  exact filter_subs_retains_unique_max
    ⟨"m.mp4", [⟨"a", "eng", "srt", 3, none⟩, ⟨"b", "eng", "srt", 7, none⟩], none⟩
    (by decide) (by decide) (by decide)

/-- C2 counterexample: two candidates for the same fingerprint, the
requested language, and exactly equal ratings — both `choose_best` and
`filter_subs` retain the EARLIER candidate (id `A`), not the later one
(id `B`) as the claim states. -/
theorem tie_break_counterexample :
    (choose_best ⟨"api", "tok", "eng"⟩
        [⟨"h", none, "srt", "A", 5, "eng", none⟩,
          ⟨"h", none, "srt", "B", 5, "eng", none⟩]).lookup "h" ≠
      some ⟨"h", none, "srt", "B", 5, "eng", none⟩ ∧
    (choose_best ⟨"api", "tok", "eng"⟩
        [⟨"h", none, "srt", "A", 5, "eng", none⟩,
          ⟨"h", none, "srt", "B", 5, "eng", none⟩]).lookup "h" =
      some ⟨"h", none, "srt", "A", 5, "eng", none⟩ ∧
    (MovieMod.filter_subs ⟨"m.mp4",
        [⟨"A", "eng", "srt", 5, none⟩, ⟨"B", "eng", "srt", 5, none⟩],
        none⟩).subs ≠ [⟨"B", "eng", "srt", 5, none⟩] := by
  decide

/-- C2 amended: given two candidates for the same fingerprint with the
requested language and exactly equal ratings, the EARLIER-encountered
candidate is retained (first-write-wins): `choose_best` replaces only
on a strictly greater rating (`tmp.rating < cand.rating`), and
`filter_subs` updates only on a strictly greater rating
(`sub.rating > highest`). -/
theorem tie_break_first_wins (u : User) (c1 c2 : Subtitles) (h : String)
    (h1l : c1.sublanguageid = u.sublanguageid)
    (h2l : c2.sublanguageid = u.sublanguageid)
    (h1h : c1.moviehash = h) (h2h : c2.moviehash = h)
    (hr : c1.rating = c2.rating)
    (p : String) (oi : Option Hash) (s1 s2 : MovieMod.Subtitles)
    (hsr : s1.rating = s2.rating) (hgt : -1 < s1.rating)
    (hid : s1.id ≠ s2.id) :
    (choose_best u [c1, c2]).lookup h = some c1 ∧
      (MovieMod.filter_subs ⟨p, [s1, s2], oi⟩).subs = [s1] := by
  constructor
  · have e1 : chooseBestStep u [] c1 = [(c1.moviehash, c1)] := by
      rw [chooseBestStep, if_neg (by simp [h1l])]
      rfl
    have e2 : chooseBestStep u [(c1.moviehash, c1)] c2 = [(c1.moviehash, c1)] := by
      rw [chooseBestStep, if_neg (by simp [h2l])]
      have hl2 : List.lookup c2.moviehash [(c1.moviehash, c1)] = some c1 := by
        rw [lookup_cons, if_pos (by rw [h1h, h2h])]
      simp only [hl2]
      rw [if_neg (by rw [hr]; exact lt_irrefl _)]
    show (List.foldl (chooseBestStep u) [] [c1, c2]).lookup h = some c1
    rw [List.foldl_cons, List.foldl_cons, List.foldl_nil, e1, e2, lookup_cons,
      if_pos h1h.symm]
  · have hscan : MovieMod.bestScan (-1, "") [s1, s2] = (s1.rating, s1.id) := by
      rw [MovieMod.bestScan, if_pos hgt, MovieMod.bestScan,
        if_neg (by rw [← hsr]; exact lt_irrefl _), MovieMod.bestScan]
    simp only [MovieMod.filter_subs, hscan]
    rw [List.filter_cons_of_pos (by simp),
      List.filter_cons_of_neg (by simpa using fun he => hid he.symm),
      List.filter_nil]

theorem tie_break_first_wins_witness :
    ((⟨"h", none, "srt", "A", 5, "eng", none⟩ : Subtitles).rating =
        (⟨"h", none, "srt", "B", 5, "eng", none⟩ : Subtitles).rating) ∧
    (choose_best ⟨"api", "tok", "eng"⟩
        [⟨"h", none, "srt", "A", 5, "eng", none⟩,
          ⟨"h", none, "srt", "B", 5, "eng", none⟩]).lookup "h" =
      some ⟨"h", none, "srt", "A", 5, "eng", none⟩ ∧
    (MovieMod.filter_subs ⟨"m.mp4",
        [⟨"A", "eng", "srt", 5, none⟩, ⟨"B", "eng", "srt", 5, none⟩],
        none⟩).subs = [⟨"A", "eng", "srt", 5, none⟩] := by
  have hmain := tie_break_first_wins ⟨"api", "tok", "eng"⟩
    ⟨"h", none, "srt", "A", 5, "eng", none⟩
    ⟨"h", none, "srt", "B", 5, "eng", none⟩ "h"
    (by decide) (by decide) (by decide) (by decide) (by decide)
    "m.mp4" none ⟨"A", "eng", "srt", 5, none⟩ ⟨"B", "eng", "srt", 5, none⟩
    (by decide) (by decide) (by decide)
  exact ⟨by decide, hmain.1, hmain.2⟩

/-! ## XML-RPC values and result extraction (`src/subs.rs`) -/

/-- The subset of `xmlrpc::Value` the program consumes. A `Struct` is
modelled as an association list looked up by key (the `BTreeMap` key
ordering is irrelevant to lookups). `f64` scalars are modelled as `ℚ`. -/
inductive RpcValue where
  | int : Int → RpcValue
  | bool : Bool → RpcValue
  | str : String → RpcValue
  | double : ℚ → RpcValue
  | array : List RpcValue → RpcValue
  | struct : List (String × RpcValue) → RpcValue
  | nil : RpcValue

/-- The `xmlrpc::Value::get` accessor: a field of a `Struct`, `None`
on every other variant. -/
def RpcValue.get : RpcValue → String → Option RpcValue
  | .struct m, k => m.lookup k
  | _, _ => none

/-- The `xmlrpc::Value::as_str` accessor: `Some` only on `String`. -/
def RpcValue.as_str : RpcValue → Option String
  | .str s => some s
  | _ => none

/-- The `xmlrpc::Value::as_array` accessor. -/
def RpcValue.as_array : RpcValue → Option (List RpcValue)
  | .array l => some l
  | _ => none

/-- The `xmlrpc::Value::as_struct` accessor. -/
def RpcValue.as_struct : RpcValue → Option (List (String × RpcValue))
  | .struct m => some m
  | _ => none

/-- Value of a digit string (the mantissa/exponent digit runs of a
float literal). -/
def digitsVal (ds : List Char) : Nat :=
  ds.foldl (fun a c => 10 * a + (c.toNat - 48)) 0

/-- Embeds `str::parse::<f64>` (as used on the `SubRating` field) on
the finite decimal grammar `[+-]? (digits [. digits?] | . digits)
([eE] [+-]? digits)?`. The parsed value is the exact rational
`sign * (ipart.fpart) * 10 ^ exponent`, kept exact in `ℚ` instead of
being rounded to the nearest double; the special literals
`inf`/`infinity`/`nan` — which cannot occur as protocol ratings — are
treated as unparseable. -/
def parseF64 (s : String) : Option ℚ :=
  let signAndRest : Int × List Char :=
    match s.data with
    | '+' :: t => (1, t)
    | '-' :: t => (-1, t)
    | cs => (1, cs)
  let sign := signAndRest.1
  let cs1 := signAndRest.2
  let ipart := cs1.takeWhile Char.isDigit
  let rest1 := cs1.dropWhile Char.isDigit
  let hasDot := match rest1 with | '.' :: _ => true | _ => false
  let fpart := if hasDot then (rest1.drop 1).takeWhile Char.isDigit else []
  let rest2 := if hasDot then (rest1.drop 1).dropWhile Char.isDigit else rest1
  if ipart.isEmpty ∧ fpart.isEmpty then none
  else
    let mantNum : Int :=
      sign * ((digitsVal ipart : Int) * (10 : Int) ^ fpart.length + digitsVal fpart)
    let mantDen : Nat := 10 ^ fpart.length
    match rest2 with
    | [] => some (mkRat mantNum mantDen)
    | e :: t =>
      if e = 'e' ∨ e = 'E' then
        let expSignAndRest : Int × List Char :=
          match t with
          | '+' :: t2 => (1, t2)
          | '-' :: t2 => (-1, t2)
          | _ => (1, t)
        let eds := expSignAndRest.2.takeWhile Char.isDigit
        let rest3 := expSignAndRest.2.dropWhile Char.isDigit
        if eds.isEmpty ∨ ¬rest3.isEmpty then none
        else
          let expo : Int := expSignAndRest.1 * (digitsVal eds : Int)
          if 0 ≤ expo then
            some (mkRat (mantNum * (10 : Int) ^ expo.toNat) mantDen)
          else some (mkRat mantNum (mantDen * 10 ^ (-expo).toNat))
      else none

/-- The `fields[3].1.parse().unwrap_or(0f64)` of `extract_subids`:
an unparseable rating becomes `0.0`. -/
def parseRating (s : String) : ℚ :=
  (parseF64 s).getD 0

/-- One iteration of the `extract_item` closure of `extract_subids`
(`src/subs.rs` lines 140–168): `None` (the hit is skipped) when the
item is not a struct or any of the five required fields is absent or
not a string; otherwise the grouping hash and the built `Subtitles`. -/
def extractHit (item : RpcValue) : Option (String × MovieMod.Subtitles) :=
  match item.as_struct with
  | none => none
  | some st =>
    match (st.lookup "MovieHash").bind RpcValue.as_str,
        (st.lookup "IDSubtitleFile").bind RpcValue.as_str,
        (st.lookup "SubFormat").bind RpcValue.as_str,
        (st.lookup "SubRating").bind RpcValue.as_str,
        (st.lookup "SubLanguageID").bind RpcValue.as_str with
    | some hash, some id, some format, some rating, some lang =>
      some (hash, ⟨id, lang, format, parseRating rating, none⟩)
    | _, _, _, _, _ => none

/-- The `ret.entry(hash).or_insert(Vec::new()).push(sub)` of
`extract_subids`: append to the entry's vector, creating it if new. -/
def mapPush (m : List (String × List MovieMod.Subtitles)) (k : String)
    (v : MovieMod.Subtitles) : List (String × List MovieMod.Subtitles) :=
  match m with
  | [] => [(k, [v])]
  | (k', vs) :: t => if k' = k then (k', vs ++ [v]) :: t else (k', vs) :: mapPush t k v

/-- Folding one response item into the grouping map: skipped hits
leave the map unchanged. -/
def extractStep (ret : List (String × List MovieMod.Subtitles))
    (item : RpcValue) : List (String × List MovieMod.Subtitles) :=
  match extractHit item with
  | none => ret
  | some (hash, sub) => mapPush ret hash sub

/-- The `extract_subids` function of `src/subs.rs` (lines 135–175):
group the hits of the response's `data` array by `MovieHash`. The
function is total — a missing `data` field, a non-array `data`, or a
malformed hit produces no error, only an empty/shorter map. -/
def extract_subids (response : RpcValue) :
    List (String × List MovieMod.Subtitles) :=
  match (response.get "data").bind RpcValue.as_array with
  | none => []
  | some arr => arr.foldl extractStep []

theorem extract_subids_data (items : List RpcValue) :
    extract_subids (.struct [("data", .array items)])
      = items.foldl extractStep [] := rfl

/-- C7 counterexample: a response whose first hit lacks the required
`MovieHash` field — `extract_subids` silently skips that hit and
succeeds with the remaining one; no `Malformed` error is surfaced (the
function's result type carries no error at all). -/
theorem extract_subids_malformed_counterexample :
    extract_subids (.struct [("data", .array [
      .struct [("IDSubtitleFile", .str "1"), ("SubFormat", .str "srt"),
        ("SubRating", .str "5.0"), ("SubLanguageID", .str "eng")],
      .struct [("MovieHash", .str "h2"), ("IDSubtitleFile", .str "2"),
        ("SubFormat", .str "srt"), ("SubRating", .str "8.0"),
        ("SubLanguageID", .str "eng")]])])
      = [("h2", [⟨"2", "eng", "srt", 8, none⟩])] := by
  decide

/-- C7 amended: a hit that lacks one of the five required fields
(`MovieHash`, `IDSubtitleFile`, `SubFormat`, `SubRating`,
`SubLanguageID`) or carries it with a non-string type is silently
skipped by `extract_subids`; extraction never fails — removing the
malformed hits from the response leaves the result unchanged
(`Malformed` arises only in `response_status`, for a missing `status`
field). -/
theorem extract_subids_skips_malformed (items : List RpcValue) :
    extract_subids (.struct [("data", .array items)])
      = extract_subids (.struct [("data",
          .array (items.filter (fun i => (extractHit i).isSome)))]) := by
  have key : ∀ (l : List RpcValue) (acc : List (String × List MovieMod.Subtitles)),
      l.foldl extractStep acc
        = (l.filter (fun i => (extractHit i).isSome)).foldl extractStep acc := by
    intro l
    induction l with
    | nil => intro acc; rfl
    | cons i t ih =>
      intro acc
      cases hi : extractHit i with
      | none =>
        rw [List.foldl_cons, List.filter_cons_of_neg (by simp [hi])]
        have : extractStep acc i = acc := by rw [extractStep, hi]
        rw [this]
        exact ih acc
      | some p =>
        rw [List.foldl_cons, List.filter_cons_of_pos (by simp [hi]),
          List.foldl_cons]
        exact ih _
  rw [extract_subids_data, extract_subids_data]
  exact key items []

/-- C10: a hit whose five required fields are all present as strings
but whose `SubRating` string does not parse as a number is neither
dropped nor an error: the candidate is created with rating `0.0`. -/
theorem unparseable_rating_becomes_zero
    (hashS idS fmtS ratingS langS : String)
    (hbad : parseF64 ratingS = none) :
    extract_subids (.struct [("data", .array [.struct
      [("MovieHash", .str hashS), ("IDSubtitleFile", .str idS),
        ("SubFormat", .str fmtS), ("SubRating", .str ratingS),
        ("SubLanguageID", .str langS)]])])
      = [(hashS, [⟨idS, langS, fmtS, 0, none⟩])] := by
  rw [extract_subids_data, List.foldl_cons, List.foldl_nil]
  have hhit : extractHit (.struct
      [("MovieHash", .str hashS), ("IDSubtitleFile", .str idS),
        ("SubFormat", .str fmtS), ("SubRating", .str ratingS),
        ("SubLanguageID", .str langS)])
      = some (hashS, ⟨idS, langS, fmtS, parseRating ratingS, none⟩) := rfl
  rw [extractStep, hhit]
  have hrat : parseRating ratingS = 0 := by
    rw [parseRating, hbad]
    rfl
  rw [hrat]
  rfl

theorem unparseable_rating_becomes_zero_witness :
    parseF64 "N/A" = none ∧
      extract_subids (.struct [("data", .array [.struct
        [("MovieHash", .str "h"), ("IDSubtitleFile", .str "1"),
          ("SubFormat", .str "srt"), ("SubRating", .str "N/A"),
          ("SubLanguageID", .str "eng")]])])
        = [("h", [⟨"1", "eng", "srt", 0, none⟩])] :=
  ⟨by decide, unparseable_rating_becomes_zero "h" "1" "srt" "N/A" "eng" (by decide)⟩

/-! ## Search request construction (`src/subs.rs`) -/

namespace SubsRs

/-- The `Error` enum of `src/subs.rs` (lines 20–30); the `io::Error`
and `xmlrpc::Error` payloads are not inspected by the program and are
dropped in the model. -/
inductive Error where
  | BadStatus : String → Error
  | Io : Error
  | Xmlrpc : Error
  | NoToken : Error
  | Base64 : Error
  | Malformed : Error
  | NothingToSearch : Error
  | NothingToSave : Error
  deriving Repr, DecidableEq

/-- The `Movie` struct of `src/subs.rs` (lines 301–306); its
`Subtitles` struct has the same fields as the one in
`src/user/movie/mod.rs`. -/
structure Movie where
  filename : String
  subs : List MovieMod.Subtitles
  os_info : Option Hash
  deriving Repr, DecidableEq

/-- An outgoing XML-RPC request (`xmlrpc::Request`): method name and
arguments. `search_request` returning `Except.ok` with this value is
the single network call it issues (`request.call_url`); returning
`Except.error` means no call is made. -/
structure RpcRequest where
  method : String
  args : List RpcValue

/-- The `size as i64` cast of the search entry: reinterpret the low 64
bits as a signed two's-complement value. -/
def asI64 (n : Nat) : Int :=
  if n % 2 ^ 64 < 2 ^ 63 then (n % 2 ^ 64 : Int)
  else (n % 2 ^ 64 : Int) - 2 ^ 64

/-- The `search_request` function of `src/subs.rs` (lines 193–229):
one struct per movie that has a computed fingerprint; if none has,
fail with `NothingToSearch` before any call is issued. -/
def search_request (u : User) (movies : List Movie) : Except Error RpcRequest :=
  let prepared := movies.filterMap (fun m => m.os_info.map (fun oi =>
    RpcValue.struct [("moviehash", .str oi.hash),
      ("moviebytesize", .int (asI64 oi.size)),
      ("sublanguageid", .str u.sublanguageid)]))
  if prepared.length < 1 then .error .NothingToSearch
  else .ok ⟨"SearchSubtitles", [.str u.token, .array prepared]⟩

end SubsRs

/-- C5: when no movie in the batch has a computed fingerprint
(`os_info = none` for all), `search_request` fails immediately with
`NothingToSearch`; no `RpcRequest` is produced, i.e. no network call
is issued. -/
theorem search_request_nothing_to_search (u : User)
    (movies : List SubsRs.Movie) (h : ∀ m ∈ movies, m.os_info = none) :
    SubsRs.search_request u movies = .error .NothingToSearch := by
  have hmap : movies.filterMap (fun m => m.os_info.map (fun oi =>
      RpcValue.struct [("moviehash", .str oi.hash),
        ("moviebytesize", .int (SubsRs.asI64 oi.size)),
        ("sublanguageid", .str u.sublanguageid)])) = [] := by
    rw [List.filterMap_eq_nil_iff]
    intro m hm
    rw [h m hm]
    rfl
  rw [SubsRs.search_request]
  simp only [hmap]
  rfl

theorem search_request_nothing_to_search_witness :
    (∀ m ∈ ([⟨"a.mp4", [], none⟩, ⟨"b.mp4", [], none⟩] :
        List SubsRs.Movie), m.os_info = none) ∧
      SubsRs.search_request ⟨"api", "tok", "eng"⟩
          [⟨"a.mp4", [], none⟩, ⟨"b.mp4", [], none⟩]
        = .error .NothingToSearch :=
  ⟨by decide, search_request_nothing_to_search ⟨"api", "tok", "eng"⟩
    [⟨"a.mp4", [], none⟩, ⟨"b.mp4", [], none⟩] (by decide)⟩

/-! ## Base64 transport coding (the `base64::decode` called by
`save_subs`, and the matching encoder applied by the remote service) -/

/-- The standard base64 alphabet (the `base64` crate's default
character set, used by `base64::decode`). -/
def b64Alphabet : List Char :=
  ['A', 'B', 'C', 'D', 'E', 'F', 'G', 'H', 'I', 'J', 'K', 'L', 'M',
   'N', 'O', 'P', 'Q', 'R', 'S', 'T', 'U', 'V', 'W', 'X', 'Y', 'Z',
   'a', 'b', 'c', 'd', 'e', 'f', 'g', 'h', 'i', 'j', 'k', 'l', 'm',
   'n', 'o', 'p', 'q', 'r', 's', 't', 'u', 'v', 'w', 'x', 'y', 'z',
   '0', '1', '2', '3', '4', '5', '6', '7', '8', '9', '+', '/']

/-- Modelled from the spec: the text-safe transport encoding character
for a 6-bit value. -/
def encodeChar (n : Nat) : Char :=
  b64Alphabet.getD n 'A'

/-- The decode table of `base64::decode`: the 6-bit value of an
alphabet character, `none` for any other character. -/
def decodeChar (c : Char) : Option Nat :=
  let i := b64Alphabet.indexOf c
  if i < 64 then some i else none

/-- Modelled from the spec: the text-safe transport encoding applied
by the remote service — standard base64 with `=` padding, 3 bytes to
4 characters. -/
def b64EncodeList : List Nat → List Char
  | b0 :: b1 :: b2 :: rest =>
    encodeChar (b0 / 4) ::
      encodeChar (b0 % 4 * 16 + b1 / 16) ::
      encodeChar (b1 % 16 * 4 + b2 / 64) ::
      encodeChar (b2 % 64) :: b64EncodeList rest
  | [b0, b1] =>
    [encodeChar (b0 / 4), encodeChar (b0 % 4 * 16 + b1 / 16),
      encodeChar (b1 % 16 * 4), '=']
  | [b0] =>
    [encodeChar (b0 / 4), encodeChar (b0 % 4 * 16), '=', '=']
  | [] => []

/-- The `base64::decode` of `save_subs`, on the character list: groups
of four characters, `=` padding only in a final group, any
non-alphabet character or ragged length is a decode error (`none`). -/
def b64DecodeList : List Char → Option (List Nat)
  | [] => some []
  | c0 :: c1 :: c2 :: c3 :: rest =>
    match decodeChar c0, decodeChar c1 with
    | some a, some b =>
      if c2 = '=' then
        if c3 = '=' ∧ rest = [] then some [a * 4 + b / 16] else none
      else
        match decodeChar c2 with
        | none => none
        | some c =>
          if c3 = '=' then
            if rest = [] then some [a * 4 + b / 16, b % 16 * 16 + c / 4]
            else none
          else
            match decodeChar c3 with
            | none => none
            | some d =>
              match b64DecodeList rest with
              | none => none
              | some ds =>
                some ((a * 4 + b / 16) :: (b % 16 * 16 + c / 4) ::
                  (c % 4 * 64 + d) :: ds)
    | _, _ => none
  | _ => none

/-- Modelled from the spec: the transport encoding of a byte sequence
as the string carried in the response's `data` field. -/
def b64Encode (bs : List Nat) : String :=
  String.mk (b64EncodeList bs)

/-- The `base64::decode(&str)` call of `save_subs`. -/
def b64Decode (s : String) : Option (List Nat) :=
  b64DecodeList s.data

theorem decodeChar_encodeChar : ∀ n, n < 64 → decodeChar (encodeChar n) = some n := by
  decide

theorem encodeChar_ne_pad : ∀ n, n < 64 → encodeChar n ≠ '=' := by
  decide

theorem b64_roundtrip : ∀ (bs : List Nat), (∀ b ∈ bs, b < 256) →
    b64DecodeList (b64EncodeList bs) = some bs
  | [] => fun _ => rfl
  | [b0] => fun hb => by
    have hlt : b0 < 256 := hb b0 (by simp)
    have h0 : b0 / 4 < 64 := by omega
    have h1 : b0 % 4 * 16 < 64 := by omega
    simp only [b64EncodeList, b64DecodeList, decodeChar_encodeChar _ h0,
      decodeChar_encodeChar _ h1, if_pos rfl, and_true, and_self, if_true]
    have heq : b0 / 4 * 4 + b0 % 4 * 16 / 16 = b0 := by omega
    rw [heq]
  | [b0, b1] => fun hb => by
    have hlt0 : b0 < 256 := hb b0 (by simp)
    have hlt1 : b1 < 256 := hb b1 (by simp)
    have h0 : b0 / 4 < 64 := by omega
    have h1 : b0 % 4 * 16 + b1 / 16 < 64 := by omega
    have h2 : b1 % 16 * 4 < 64 := by omega
    simp only [b64EncodeList, b64DecodeList, decodeChar_encodeChar _ h0,
      decodeChar_encodeChar _ h1, decodeChar_encodeChar _ h2,
      if_neg (encodeChar_ne_pad _ h2), if_pos rfl, if_true]
    have heq0 : b0 / 4 * 4 + (b0 % 4 * 16 + b1 / 16) / 16 = b0 := by omega
    have heq1 : (b0 % 4 * 16 + b1 / 16) % 16 * 16 + b1 % 16 * 4 / 4 = b1 := by
      omega
    rw [heq0, heq1]
  | b0 :: b1 :: b2 :: rest => fun hb => by
    have hlt0 : b0 < 256 := hb b0 (by simp)
    have hlt1 : b1 < 256 := hb b1 (by simp)
    have hlt2 : b2 < 256 := hb b2 (by simp)
    have h0 : b0 / 4 < 64 := by omega
    have h1 : b0 % 4 * 16 + b1 / 16 < 64 := by omega
    have h2 : b1 % 16 * 4 + b2 / 64 < 64 := by omega
    have h3 : b2 % 64 < 64 := by omega
    have ih := b64_roundtrip rest
      (fun b hbm => hb b (by simp [hbm]))
    simp only [b64EncodeList, b64DecodeList, decodeChar_encodeChar _ h0,
      decodeChar_encodeChar _ h1, decodeChar_encodeChar _ h2,
      decodeChar_encodeChar _ h3, if_neg (encodeChar_ne_pad _ h2),
      if_neg (encodeChar_ne_pad _ h3), ih]
    have heq0 : b0 / 4 * 4 + (b0 % 4 * 16 + b1 / 16) / 16 = b0 := by omega
    have heq1 : (b0 % 4 * 16 + b1 / 16) % 16 * 16 +
        (b1 % 16 * 4 + b2 / 64) / 4 = b1 := by omega
    have heq2 : (b1 % 16 * 4 + b2 / 64) % 4 * 64 + b2 % 64 = b2 := by omega
    rw [heq0, heq1, heq2]

/-! ## Gzip compressed stream (the `GzDecoder` used by
`decode_reader`, and the matching compressor applied by the remote
service). Modelled from the spec: the compression stage itself lives
in the remote service and the `flate2` library, not under `src/`; it
is modelled here as a gzip member whose DEFLATE stream uses stored
(uncompressed) blocks — a valid gzip encoding — and whose decoder
checks the header, the stored-block framing, and the CRC-32/ISIZE
trailer exactly as `GzDecoder` does on such streams. -/

/-- The reflected CRC-32 polynomial (0xEDB88320). -/
def crcPoly : Nat := 0xEDB88320

/-- One bit step of the CRC-32 computation. -/
def crcRound (c : Nat) : Nat :=
  if c % 2 = 1 then (c / 2) ^^^ crcPoly else c / 2

/-- One byte step of the CRC-32 computation. -/
def crcByte (c b : Nat) : Nat :=
  crcRound^[8] (c ^^^ (b % 256))

/-- CRC-32 of a byte sequence (init `0xFFFFFFFF`, final xor). -/
def crc32 (bs : List Nat) : Nat :=
  (bs.foldl crcByte 0xFFFFFFFF) ^^^ 0xFFFFFFFF

/-- Two little-endian bytes of a 16-bit value. -/
def le16 (n : Nat) : List Nat := [n % 256, n / 256 % 256]

/-- Four little-endian bytes of a 32-bit value. -/
def le32 (n : Nat) : List Nat :=
  [n % 256, n / 256 % 256, n / 2 ^ 16 % 256, n / 2 ^ 24 % 256]

/-- Modelled from the spec: the DEFLATE stream of the compression
stage, as a sequence of stored (BTYPE=00) blocks of at most 65535
bytes. A block is the BFINAL/BTYPE byte, LEN and its one's complement
NLEN (little-endian), then the raw bytes. -/
def deflateStored (bs : List Nat) : List Nat :=
  if _h : bs.length ≤ 65535 then
    1 :: (le16 bs.length ++ le16 (65535 - bs.length) ++ bs)
  else
    (0 :: (le16 65535 ++ le16 0 ++ bs.take 65535)) ++ deflateStored (bs.drop 65535)
  termination_by bs.length
  decreasing_by
    simp only [List.length_drop]
    omega

/-- The stored-block DEFLATE decoder of `GzDecoder`'s inflater: parse
blocks until BFINAL, returning the data and the remaining input
(the trailer). `none` on a non-stored block type, an NLEN that is not
the complement of LEN, or truncated input. -/
def inflateStored : List Nat → Option (List Nat × List Nat)
  | b :: l0 :: l1 :: n0 :: n1 :: rest =>
    if b / 2 % 4 ≠ 0 then none
    else
      let len := l0 + 256 * l1
      let nlen := n0 + 256 * n1
      if len + nlen ≠ 65535 then none
      else if len ≤ rest.length then
        let dat := rest.take len
        let rest2 := rest.drop len
        if b % 2 = 1 then some (dat, rest2)
        else
          match inflateStored rest2 with
          | none => none
          | some (d, r) => some (dat ++ d, r)
      else none
  | _ => none
  termination_by l => l.length
  decreasing_by
    simp only [List.length_drop, List.length_cons]
    omega

/-- Modelled from the spec: the gzip member produced by the
compression stage — the 10-byte header (magic `1f 8b`, method 8
(DEFLATE), no flags, zero mtime, XFL 0, OS 255), the DEFLATE stream,
then the CRC-32 and the length modulo `2 ^ 32`, little-endian. -/
def gzipCompress (bs : List Nat) : List Nat :=
  [0x1f, 0x8b, 8, 0, 0, 0, 0, 0, 0, 255] ++ deflateStored bs
    ++ le32 (crc32 bs) ++ le32 (bs.length % 2 ^ 32)

/-- The `GzDecoder::read_to_end` of `decode_reader`, on flag-free
stored-block members: check the magic, method and flag bytes, inflate,
then verify the CRC-32 and ISIZE trailer. `none` is the
`io::Error` (corrupt stream) path. -/
def gzipDecompress (bs : List Nat) : Option (List Nat) :=
  match bs with
  | b0 :: b1 :: b2 :: b3 :: _m0 :: _m1 :: _m2 :: _m3 :: _xfl :: _os :: rest =>
    if b0 = 0x1f ∧ b1 = 0x8b ∧ b2 = 8 ∧ b3 = 0 then
      match inflateStored rest with
      | none => none
      | some (dat, trailer) =>
        match trailer with
        | c0 :: c1 :: c2 :: c3 :: i0 :: i1 :: i2 :: i3 :: _ =>
          if crc32 dat = c0 + 256 * c1 + 2 ^ 16 * c2 + 2 ^ 24 * c3 ∧
              dat.length % 2 ^ 32 = i0 + 256 * i1 + 2 ^ 16 * i2 + 2 ^ 24 * i3 then
            some dat
          else none
        | _ => none
    else none
  | _ => none

theorem crcRound_lt {c : Nat} (h : c < 2 ^ 32) : crcRound c < 2 ^ 32 := by
  rw [crcRound]
  by_cases hp : c % 2 = 1
  · rw [if_pos hp]
    exact Nat.xor_lt_two_pow (by omega) (by norm_num [crcPoly])
  · rw [if_neg hp]
    omega

theorem crcIter_lt : ∀ (k : Nat) {c : Nat}, c < 2 ^ 32 → crcRound^[k] c < 2 ^ 32 := by
  intro k
  induction k with
  | zero => intro c h; simpa using h
  | succ k ih =>
    intro c h
    rw [Function.iterate_succ_apply]
    exact ih (crcRound_lt h)

theorem crcByte_lt {c : Nat} (h : c < 2 ^ 32) (b : Nat) : crcByte c b < 2 ^ 32 := by
  rw [crcByte]
  exact crcIter_lt 8 (Nat.xor_lt_two_pow h (by omega))

theorem crc32_lt (bs : List Nat) : crc32 bs < 2 ^ 32 := by
  rw [crc32]
  have hfold : ∀ (l : List Nat) (c : Nat), c < 2 ^ 32 →
      l.foldl crcByte c < 2 ^ 32 := by
    intro l
    induction l with
    | nil => intro c h; simpa using h
    | cons b t ih =>
      intro c h
      rw [List.foldl_cons]
      exact ih _ (crcByte_lt h b)
  exact Nat.xor_lt_two_pow (hfold bs _ (by norm_num)) (by norm_num)

theorem le16_lt (n : Nat) : ∀ b ∈ le16 n, b < 256 := by
  intro b hb
  simp only [le16, List.mem_cons, List.not_mem_nil, or_false] at hb
  rcases hb with rfl | rfl <;> omega

theorem le32_lt (n : Nat) : ∀ b ∈ le32 n, b < 256 := by
  intro b hb
  simp only [le32, List.mem_cons, List.not_mem_nil, or_false] at hb
  rcases hb with rfl | rfl | rfl | rfl <;> omega

theorem deflateStored_bytes_lt (bs : List Nat) (hbs : ∀ b ∈ bs, b < 256) :
    ∀ x ∈ deflateStored bs, x < 256 := by
  have H : ∀ (n : Nat) (l : List Nat), l.length ≤ n → (∀ b ∈ l, b < 256) →
      ∀ x ∈ deflateStored l, x < 256 := by
    intro n
    induction n with
    | zero =>
      intro l hl hb x hx
      have hnil : l = [] := List.eq_nil_of_length_eq_zero (by omega)
      subst hnil
      rw [deflateStored, dif_pos (by simp)] at hx
      simp only [le16, List.mem_cons, List.mem_append, List.not_mem_nil,
        or_false, List.cons_append, List.nil_append] at hx
      rcases hx with rfl | rfl | rfl | rfl | rfl <;> norm_num
    | succ n ihn =>
      intro l hl hb x hx
      by_cases hc : l.length ≤ 65535
      · rw [deflateStored, dif_pos hc] at hx
        rcases List.mem_cons.mp hx with rfl | h2
        · norm_num
        rcases List.mem_append.mp h2 with h3 | h3
        · rcases List.mem_append.mp h3 with h4 | h4
          · exact le16_lt _ x h4
          · exact le16_lt _ x h4
        · exact hb x h3
      · rw [deflateStored, dif_neg hc] at hx
        rcases List.mem_append.mp hx with h1 | h1
        · rcases List.mem_cons.mp h1 with rfl | h2
          · norm_num
          rcases List.mem_append.mp h2 with h3 | h3
          · rcases List.mem_append.mp h3 with h4 | h4
            · exact le16_lt _ x h4
            · exact le16_lt _ x h4
          · exact hb x (List.take_subset _ _ h3)
        · refine ihn (l.drop 65535) (by simp only [List.length_drop]; omega)
            (fun b hbm => hb b (List.drop_subset _ _ hbm)) x h1
  exact H bs.length bs le_rfl hbs

theorem gzipCompress_bytes_lt (bs : List Nat) (hbs : ∀ b ∈ bs, b < 256) :
    ∀ x ∈ gzipCompress bs, x < 256 := by
  intro x hx
  rw [gzipCompress] at hx
  rcases List.mem_append.mp hx with h1 | h1
  · rcases List.mem_append.mp h1 with h2 | h2
    · rcases List.mem_append.mp h2 with h3 | h3
      · simp only [List.mem_cons, List.not_mem_nil, or_false] at h3
        rcases h3 with rfl | rfl | rfl | rfl | rfl | rfl | rfl | rfl | rfl | rfl <;>
          norm_num
      · exact deflateStored_bytes_lt bs hbs x h3
    · exact le32_lt _ x h2
  · exact le32_lt _ x h1

theorem inflateStored_cons (b l0 l1 n0 n1 : Nat) (rest : List Nat) :
    inflateStored (b :: l0 :: l1 :: n0 :: n1 :: rest) =
      if b / 2 % 4 ≠ 0 then none
      else if (l0 + 256 * l1) + (n0 + 256 * n1) ≠ 65535 then none
      else if l0 + 256 * l1 ≤ rest.length then
        if b % 2 = 1 then
          some (rest.take (l0 + 256 * l1), rest.drop (l0 + 256 * l1))
        else
          match inflateStored (rest.drop (l0 + 256 * l1)) with
          | none => none
          | some (d, r) => some (rest.take (l0 + 256 * l1) ++ d, r)
      else none := by
  rw [inflateStored]

theorem inflate_deflate (bs tail : List Nat) :
    inflateStored (deflateStored bs ++ tail) = some (bs, tail) := by
  have H : ∀ (n : Nat) (l : List Nat), l.length ≤ n → ∀ (tl : List Nat),
      inflateStored (deflateStored l ++ tl) = some (l, tl) := by
    intro n
    induction n with
    | zero =>
      intro l hl tl
      have hnil : l = [] := List.eq_nil_of_length_eq_zero (by omega)
      subst hnil
      rw [deflateStored, dif_pos (by simp)]
      have hform : (1 :: (le16 (List.length ([] : List Nat)) ++
          le16 (65535 - List.length ([] : List Nat)) ++ ([] : List Nat))) ++ tl
          = 1 :: 0 :: 0 :: 255 :: 255 :: tl := rfl
      rw [hform, inflateStored_cons]
      rw [if_neg (by norm_num), if_neg (by norm_num),
        if_pos (by omega), if_pos (by norm_num)]
      simp
    | succ n ihn =>
      intro l hl tl
      by_cases hc : l.length ≤ 65535
      · rw [deflateStored, dif_pos hc]
        have hform : (1 :: (le16 l.length ++ le16 (65535 - l.length) ++ l)) ++ tl
            = 1 :: (l.length % 256) :: (l.length / 256 % 256) ::
              ((65535 - l.length) % 256) :: ((65535 - l.length) / 256 % 256) ::
              (l ++ tl) := by
          simp [le16, List.cons_append, List.append_assoc]
        rw [hform, inflateStored_cons]
        have hlen : l.length % 256 + 256 * (l.length / 256 % 256) = l.length := by
          omega
        have hnlen : (65535 - l.length) % 256 +
            256 * ((65535 - l.length) / 256 % 256) = 65535 - l.length := by
          omega
        rw [hlen, hnlen]
        rw [if_neg (by norm_num), if_neg (by omega),
          if_pos (by simp only [List.length_append]; omega),
          if_pos (by norm_num)]
        rw [List.take_left, List.drop_left]
      · rw [deflateStored, dif_neg hc]
        push_neg at hc
        have hform : ((0 :: (le16 65535 ++ le16 0 ++ l.take 65535)) ++
            deflateStored (l.drop 65535)) ++ tl
            = 0 :: 255 :: 255 :: 0 :: 0 ::
              (l.take 65535 ++ (deflateStored (l.drop 65535) ++ tl)) := by
          simp [le16, List.cons_append, List.append_assoc]
        rw [hform, inflateStored_cons]
        have htk : (l.take 65535).length = 65535 := by
          simp only [List.length_take]
          omega
        rw [if_neg (by norm_num), if_neg (by norm_num),
          if_pos (by simp only [List.length_append, htk]; omega),
          if_neg (by norm_num)]
        have hnum : (255 : Nat) + 256 * 255 = 65535 := by norm_num
        rw [hnum, List.drop_left' htk, List.take_left' htk,
          ihn (l.drop 65535) (by simp only [List.length_drop]; omega) tl]
        simp only [List.take_append_drop]
  exact H bs.length bs le_rfl tail

theorem gzip_roundtrip (bs : List Nat) :
    gzipDecompress (gzipCompress bs) = some bs := by
  rw [gzipCompress]
  have hform : ([0x1f, 0x8b, 8, 0, 0, 0, 0, 0, 0, 255] ++ deflateStored bs
      ++ le32 (crc32 bs) ++ le32 (bs.length % 2 ^ 32))
      = 0x1f :: 0x8b :: 8 :: 0 :: 0 :: 0 :: 0 :: 0 :: 0 :: 255 ::
        (deflateStored bs ++ (le32 (crc32 bs) ++ le32 (bs.length % 2 ^ 32))) := by
    simp [List.cons_append, List.append_assoc]
  rw [hform]
  simp only [gzipDecompress]
  rw [if_pos (by norm_num)]
  rw [inflate_deflate bs (le32 (crc32 bs) ++ le32 (bs.length % 2 ^ 32))]
  have hform2 : le32 (crc32 bs) ++ le32 (bs.length % 2 ^ 32)
      = crc32 bs % 256 :: (crc32 bs / 256 % 256) :: (crc32 bs / 2 ^ 16 % 256) ::
        (crc32 bs / 2 ^ 24 % 256) :: (bs.length % 2 ^ 32 % 256) ::
        (bs.length % 2 ^ 32 / 256 % 256) :: (bs.length % 2 ^ 32 / 2 ^ 16 % 256) ::
        (bs.length % 2 ^ 32 / 2 ^ 24 % 256) :: [] := rfl
  rw [hform2]
  have hcrc := crc32_lt bs
  show (if crc32 bs = crc32 bs % 256 + 256 * (crc32 bs / 256 % 256) +
        2 ^ 16 * (crc32 bs / 2 ^ 16 % 256) + 2 ^ 24 * (crc32 bs / 2 ^ 24 % 256) ∧
      bs.length % 2 ^ 32 = bs.length % 2 ^ 32 % 256 +
        256 * (bs.length % 2 ^ 32 / 256 % 256) +
        2 ^ 16 * (bs.length % 2 ^ 32 / 2 ^ 16 % 256) +
        2 ^ 24 * (bs.length % 2 ^ 32 / 2 ^ 24 % 256) then
      some bs else none) = some bs
  rw [if_pos (by constructor <;> omega)]

/-- The decode pipeline of `save_subs` (`src/user/movie/mod.rs`):
`base64::decode` of the transport string, then `decode_reader`
(gzip decompression) of the decoded bytes. -/
def decodePipeline (s : String) : Option (List Nat) :=
  (b64Decode s).bind gzipDecompress

/-- C6: encoding any byte sequence with the compression stage (gzip)
followed by the text-safe transport stage (base64), then decoding with
the two mandatory stages of `save_subs`/`decode_reader` in order
(base64 decode, then gzip decompression), reproduces the original
bytes exactly. -/
theorem decode_roundtrip (bs : List Nat) (hb : ∀ b ∈ bs, b < 256) :
    decodePipeline (b64Encode (gzipCompress bs)) = some bs := by
  rw [decodePipeline, b64Encode, b64Decode]
  have hdata : (String.mk (b64EncodeList (gzipCompress bs))).data
      = b64EncodeList (gzipCompress bs) := rfl
  rw [hdata, b64_roundtrip _ (gzipCompress_bytes_lt bs hb), Option.some_bind]
  exact gzip_roundtrip bs

theorem decode_roundtrip_witness :
    (∀ b ∈ ([72, 105, 33] : List Nat), b < 256) ∧
      decodePipeline (b64Encode (gzipCompress [72, 105, 33]))
        = some [72, 105, 33] :=
  ⟨by decide, decode_roundtrip [72, 105, 33] (by decide)⟩

/-! ## Saving subtitles (`save_subs`, `src/user/movie/mod.rs`) -/

namespace MovieMod

/-- The `Error` enum of `src/user/movie/error.rs`; the `io::Error` and
`xmlrpc::Error` payloads are not inspected and are dropped. -/
inductive Error where
  | BadStatus : String → Error
  | Io : Error
  | Xmlrpc : Error
  | NoToken : Error
  | Base64 : Error
  | Malformed : Error
  | NothingToSearch : Error
  | NothingToSave : Error
  | BadPath : Error
  deriving Repr, DecidableEq

/-- Split a character list on a separator (the `/` component
structure of a path). -/
def splitChars (sep : Char) : List Char → List (List Char)
  | [] => [[]]
  | c :: t =>
    match splitChars sep t with
    | [] => [[c]]
    | h :: r => if c = sep then [] :: h :: r else (c :: h) :: r

/-- Join path components back with `/` separators. -/
def joinComponents : List (List Char) → List Char
  | [] => []
  | [c] => c
  | c :: rest => c ++ '/' :: joinComponents rest

/-- The `Path::file_stem` rule on a file name: everything before the
last `.`, except that a name without a dot, or whose only dot is its
first character (a hidden file), is its own stem. -/
def fileStemChars (name : List Char) : List Char :=
  let rev := name.reverse
  let rest := rev.dropWhile (fun c => c != '.')
  match rest with
  | [] => name
  | _ :: restRev => if restRev.isEmpty then name else restRev.reverse

/-- The `PathBuf::set_extension` call of `save_subs`: replace the
extension of the path's file name with `ext`, or `none` (Rust:
`false`) when the path has no file name (empty path, a root path, or a
path ending in `..`). Trailing `/` or `.` components are dropped, as
`Path` treats them as not part of the file name. -/
def setExtension (p ext : String) : Option String :=
  let parts := splitChars '/' p.data
  let rev := parts.reverse.dropWhile (fun c => c.isEmpty || c == ['.'])
  match rev with
  | [] => none
  | name :: restRev =>
    if name = ['.', '.'] then none
    else
      let newName := fileStemChars name ++ '.' :: ext.data
      some (String.mk (joinComponents (newName :: restRev).reverse))

/-- A filesystem effect of `save_subs`: the `File::create` call and
the `write_all` call, with their target path. -/
inductive FsEvent where
  | create : String → FsEvent
  | write : String → List Nat → FsEvent
  deriving Repr, DecidableEq

/-- The `for sub in &self.subs` loop of `save_subs` (`src/user/movie/
mod.rs` lines 63–80), returning the filesystem events performed and
the function's result. A sub without a payload is skipped; for the
first sub with one: base64-decode it (`Error::Base64` on failure),
derive the output path (`Error::BadPath` when `set_extension` returns
false), create the file, gzip-decode (`Error::Io` on a corrupt
stream — the file was already created), write, and return `Ok`.
Falling off the loop yields `Error::NothingToSave`. `File::create` and
`write_all` are modelled as succeeding, their effects recorded as
events. -/
def saveLoop (path : String) : List Subtitles → List FsEvent × Except Error Unit
  | [] => ([], .error .NothingToSave)
  | s :: rest =>
    match s.b64gz with
    | none => saveLoop path rest
    | some b64 =>
      match b64Decode b64 with
      | none => ([], .error .Base64)
      | some decoded =>
        match setExtension path (s.lang ++ "." ++ s.format) with
        | none => ([], .error .BadPath)
        | some subPath =>
          match gzipDecompress decoded with
          | none => ([.create subPath], .error .Io)
          | some extracted =>
            ([.create subPath, .write subPath extracted], .ok ())

/-- The `save_subs` method of `src/user/movie/mod.rs`. -/
def save_subs (m : Movie) : List FsEvent × Except Error Unit :=
  saveLoop m.path m.subs

end MovieMod

/-- C8: a retained candidate without a payload is skipped without any
error; `save_subs` returns `NothingToSave` exactly when no retained
candidate has a payload; and in that case no filesystem event (no
file) is produced. -/
theorem save_subs_nothing_to_save (m : MovieMod.Movie) :
    (∀ (s : MovieMod.Subtitles) (rest : List MovieMod.Subtitles),
      s.b64gz = none →
        MovieMod.saveLoop m.path (s :: rest) = MovieMod.saveLoop m.path rest) ∧
    ((MovieMod.save_subs m).2 = .error .NothingToSave ↔
      ∀ s ∈ m.subs, s.b64gz = none) ∧
    ((∀ s ∈ m.subs, s.b64gz = none) →
      MovieMod.save_subs m = ([], .error .NothingToSave)) := by
  have hskip : ∀ (s : MovieMod.Subtitles) (rest : List MovieMod.Subtitles),
      s.b64gz = none →
        MovieMod.saveLoop m.path (s :: rest) = MovieMod.saveLoop m.path rest := by
    intro s rest hs
    simp only [MovieMod.saveLoop, hs]
  have main : ∀ l : List MovieMod.Subtitles,
      ((MovieMod.saveLoop m.path l).2 = .error .NothingToSave ↔
        ∀ s ∈ l, s.b64gz = none) ∧
      ((∀ s ∈ l, s.b64gz = none) →
        MovieMod.saveLoop m.path l = ([], .error .NothingToSave)) := by
    intro l
    induction l with
    | nil =>
      constructor
      · simp [MovieMod.saveLoop]
      · intro _
        rfl
    | cons s rest ih =>
      cases hb : s.b64gz with
      | none =>
        rw [hskip s rest hb]
        constructor
        · rw [ih.1]
          constructor
          · intro h t ht
            rcases List.mem_cons.mp ht with rfl | ht'
            · exact hb
            · exact h t ht'
          · intro h t ht
            exact h t (List.mem_cons_of_mem _ ht)
        · intro h
          exact ih.2 (fun t ht => h t (List.mem_cons_of_mem _ ht))
      | some b64 =>
        have hnot : ¬∀ t ∈ s :: rest, t.b64gz = none := by
          intro hall
          rw [hall s (List.mem_cons_self _ _)] at hb
          cases hb
        have hne : (MovieMod.saveLoop m.path (s :: rest)).2
            ≠ .error .NothingToSave := by
          simp only [MovieMod.saveLoop, hb]
          cases hd : b64Decode b64 with
          | none => simp
          | some decoded =>
            cases he : MovieMod.setExtension m.path (s.lang ++ "." ++ s.format) with
            | none => simp
            | some sp =>
              cases hg : gzipDecompress decoded with
              | none => simp [hg]
              | some ex => simp [hg]
        exact ⟨⟨fun habs => absurd habs hne, fun hall => absurd hall hnot⟩,
          fun hall => absurd hall hnot⟩
  exact ⟨hskip, (main m.subs).1, (main m.subs).2⟩

theorem save_subs_nothing_to_save_witness :
    (∀ s ∈ ([⟨"A", "eng", "srt", 5, none⟩, ⟨"B", "eng", "srt", 7, none⟩] :
        List MovieMod.Subtitles), s.b64gz = none) ∧
      MovieMod.save_subs ⟨"movie.mp4",
          [⟨"A", "eng", "srt", 5, none⟩, ⟨"B", "eng", "srt", 7, none⟩], none⟩
        = ([], .error .NothingToSave) :=
  ⟨by decide,
    (save_subs_nothing_to_save ⟨"movie.mp4",
      [⟨"A", "eng", "srt", 5, none⟩, ⟨"B", "eng", "srt", 7, none⟩],
      none⟩).2.2 (by decide)⟩

/-- C9: for the first payload-bearing candidate (with a base64-valid
payload), the output filename is the video's path with its extension
replaced by `<languageCode>.<format>` — the file is created and
written at `setExtension path (lang ++ "." ++ format)` — and
`save_subs` fails with `BadPath` exactly when that path manipulation
cannot produce a valid filename. -/
theorem save_subs_output_path (path : String) (s : MovieMod.Subtitles)
    (rest : List MovieMod.Subtitles) (b64 : String) (decoded : List Nat)
    (hb : s.b64gz = some b64) (hdec : b64Decode b64 = some decoded) :
    (MovieMod.setExtension path (s.lang ++ "." ++ s.format) = none →
      MovieMod.saveLoop path (s :: rest) = ([], .error .BadPath)) ∧
    (∀ subPath, MovieMod.setExtension path (s.lang ++ "." ++ s.format) = some subPath →
      (∀ extracted, gzipDecompress decoded = some extracted →
        MovieMod.saveLoop path (s :: rest)
          = ([.create subPath, .write subPath extracted], .ok ())) ∧
      (gzipDecompress decoded = none →
        MovieMod.saveLoop path (s :: rest) = ([.create subPath], .error .Io))) := by
  constructor
  · intro hset
    simp only [MovieMod.saveLoop, hb, hdec, hset]
  · intro subPath hset
    constructor
    · intro extracted hgz
      simp only [MovieMod.saveLoop, hb, hdec, hset, hgz]
    · intro hgz
      simp only [MovieMod.saveLoop, hb, hdec, hset, hgz]

theorem save_subs_output_path_witness :
    MovieMod.setExtension "movie.mp4" ("eng" ++ "." ++ "srt")
        = some "movie.eng.srt" ∧
      MovieMod.saveLoop "movie.mp4"
          [⟨"A", "eng", "srt", 5, some (b64Encode (gzipCompress [104, 105]))⟩]
        = ([.create "movie.eng.srt", .write "movie.eng.srt" [104, 105]],
            .ok ()) := by
  have hdec : b64Decode (b64Encode (gzipCompress [104, 105]))
      = some (gzipCompress [104, 105]) := by
    rw [b64Encode, b64Decode]
    exact b64_roundtrip _ (gzipCompress_bytes_lt _ (by decide))
  have hmain := save_subs_output_path "movie.mp4"
    ⟨"A", "eng", "srt", 5, some (b64Encode (gzipCompress [104, 105]))⟩
    [] (b64Encode (gzipCompress [104, 105])) (gzipCompress [104, 105])
    rfl hdec
  refine ⟨by decide, ?_⟩
  exact (hmain.2 "movie.eng.srt" (by decide)).1 [104, 105] (gzip_roundtrip _)
